import Mathlib

/-!
Verification of the synchronous distributed training coordinator
(`src/training/graph_group_sync.cpp`) against its design document.

The embedding models a training batch as the ordered list of its samples,
each sample represented by its target-sequence length.  Double-precision
quantities from the source (`delay_`, scaling ratios, the cost-scale factor,
losses, gradients) are modelled as exact rationals.  Collaborator
capabilities that live outside the scanned sources (the autodiff engine,
`Batch::split`, the cost-scale policy, `accNanOrNorm`,
`computeNormalizationFactor`, the running batch-words average) are modelled
from the design document and are marked as such in their doc comments.
-/

namespace Marian

/-- A batch: an ordered sequence of samples, each given by its target length
(§3 of the design: known sample count, total target-word count, and maximum
target width). -/
abbrev Batch := List ℕ

/-- `Batch::size()`: number of samples. -/
def Batch.size (b : Batch) : ℕ := b.length

/-- `Batch::wordsTrg()`: total number of target words. -/
def Batch.wordsTrg (b : Batch) : ℕ := b.sum

/-- `Batch::widthTrg()`: maximum target length over the samples. -/
def Batch.widthTrg (b : Batch) : ℕ := b.foldr max 0

/-- Modelled from the spec: helper for `Batch::split(n)` — cut the sample
sequence into successive chunks of `chunkSize` samples, producing exactly
`n` chunks (trailing chunks may be empty when the batch is small). -/
def Batch.splitChunks (chunkSize : ℕ) : Batch → ℕ → List Batch
  | _, 0 => []
  | l, n + 1 => l.take chunkSize :: Batch.splitChunks chunkSize (l.drop chunkSize) n

/-- Modelled from the spec: `Batch::split(n)` is not under the scanned
sources; §3 says a batch "supports splitting into N roughly-equal
sub-batches by count", and §8 that the parts each have size
`⌈S / N⌉` or less and sum to `S`. -/
def Batch.split (b : Batch) (n : ℕ) : List Batch :=
  Batch.splitChunks ((b.length + n - 1) / n) b n

/-- Modelled from the spec: `Batch::split(1, sizeLimit).front()` — §3's
"splitting to a target sample count" keeps a prefix of the sample
sequence. -/
def Batch.splitPrefix (b : Batch) (sizeLimit : ℕ) : Batch :=
  b.take sizeLimit

/-! ### roundUpRatio (graph_group_sync.cpp lines 89-110)

Both `while` loops of the source are written with an explicit fuel
argument; `ratioFuel` is large enough for both loops to run to their
natural termination (the first loop stops once `p * 2 < ratio` fails, and
`2 ^ (num + 1)` already exceeds any positive rational with numerator
`num`; the second loop halves `p` back down to below `1`). -/

/-- First loop of `roundUpRatio`: starting from `p = 1`, keep doubling while
`p * 2 < ratio`, i.e. find the largest power of two that fits into
`ratio`. -/
def findPow (ratio : ℚ) : ℚ → ℕ → ℚ
  | p, 0 => p
  | p, fuel + 1 => if p * 2 < ratio then findPow ratio (p * 2) fuel else p

/-- Second loop of `roundUpRatio`: while `p ≥ 1`, propose
`ceil(ratio / p) * p` and return it when its relative error is within the
25% margin, otherwise halve `p`; fall back to `ratio` itself. -/
def roundLoop (ratio : ℚ) : ℚ → ℕ → ℚ
  | _, 0 => ratio
  | p, fuel + 1 =>
    if 1 ≤ p then
      -- proposedRatio = ceil(ratio / p) * p, inlined
      if |((⌈ratio / p⌉ : ℚ) * p - ratio) / ratio| ≤ 1 / 4 then (⌈ratio / p⌉ : ℚ) * p
      else roundLoop ratio (p / 2) fuel
    else ratio

/-- Fuel that lets both loops of `roundUpRatio` run to completion. -/
def ratioFuel (ratio : ℚ) : ℕ := ratio.num.toNat + 2

/-- `roundUpRatio` (lines 90-110): quantize the mini-batch ratio with a 25%
relative-error margin. -/
def roundUpRatio (ratio : ℚ) : ℚ :=
  if ratio = 0 then ratio
  else roundLoop ratio (findPow ratio 1 (ratioFuel ratio)) (ratioFuel ratio)

theorem findPow_pos (ratio : ℚ) :
    ∀ (fuel : ℕ) (p : ℚ), 0 < p → 0 < findPow ratio p fuel := by
  intro fuel
  induction fuel with
  | zero => intro p hp; simpa [findPow] using hp
  | succ n ih =>
    intro p hp
    rw [findPow]
    split
    · exact ih (p * 2) (by positivity)
    · exact hp

theorem roundLoop_spec (ratio : ℚ) (hr : 0 < ratio) :
    ∀ (fuel : ℕ) (p : ℚ), 0 < p →
      ratio ≤ roundLoop ratio p fuel ∧
        (roundLoop ratio p fuel - ratio) / ratio ≤ 1 / 4 := by
  intro fuel
  induction fuel with
  | zero =>
    intro p _
    constructor
    · simp [roundLoop]
    · simp [roundLoop]
  | succ n ih =>
    intro p hp
    rw [roundLoop]
    split
    · have hle : ratio ≤ (⌈ratio / p⌉ : ℚ) * p := by
        have h1 : ratio / p ≤ (⌈ratio / p⌉ : ℚ) := Int.le_ceil _
        calc ratio = ratio / p * p := by field_simp
        _ ≤ (⌈ratio / p⌉ : ℚ) * p := by
              exact mul_le_mul_of_nonneg_right h1 (le_of_lt hp)
      split
      · rename_i habs
        refine ⟨hle, ?_⟩
        have hnn : 0 ≤ ((⌈ratio / p⌉ : ℚ) * p - ratio) / ratio := by
          apply div_nonneg (by linarith) (le_of_lt hr)
        calc ((⌈ratio / p⌉ : ℚ) * p - ratio) / ratio
            = |((⌈ratio / p⌉ : ℚ) * p - ratio) / ratio| := (abs_of_nonneg hnn).symm
        _ ≤ 1 / 4 := habs
      · exact ih (p / 2) (by positivity)
    · constructor
      · exact le_refl ratio
      · simp [hr.ne']

/-- C3: for every positive ratio `r`, `roundUpRatio r` rounds up (never
down) and its relative error is at most 25%; and `roundUpRatio 0 = 0`. -/
theorem roundUpRatio_invariant (r : ℚ) :
    (0 < r → r ≤ roundUpRatio r ∧ (roundUpRatio r - r) / r ≤ 1 / 4) ∧
      roundUpRatio 0 = 0 := by
  constructor
  · intro hr
    rw [roundUpRatio, if_neg hr.ne']
    exact roundLoop_spec r hr (ratioFuel r) (findPow r 1 (ratioFuel r))
      (findPow_pos r (ratioFuel r) 1 one_pos)
  · simp [roundUpRatio]

/-- Witness for C3 at the concrete input `r = 3`. -/
theorem roundUpRatio_invariant_witness :
    0 < (3 : ℚ) ∧
      (3 ≤ roundUpRatio 3 ∧ (roundUpRatio 3 - 3) / 3 ≤ 1 / 4) := by
  exact ⟨by norm_num, (roundUpRatio_invariant 3).1 (by norm_num)⟩

/-! ### Properties of the spec-modelled `Batch.split` -/

theorem splitChunks_length (c : ℕ) :
    ∀ (n : ℕ) (l : Batch), (Batch.splitChunks c l n).length = n := by
  intro n
  induction n with
  | zero => intro l; rfl
  | succ m ih => intro l; simp [Batch.splitChunks, ih]

theorem split_length (b : Batch) (n : ℕ) : (Batch.split b n).length = n :=
  splitChunks_length _ n b

theorem splitChunks_sizes_le (c : ℕ) :
    ∀ (n : ℕ) (l : Batch), ∀ p ∈ Batch.splitChunks c l n, p.length ≤ c := by
  intro n
  induction n with
  | zero => intro l p hp; simp [Batch.splitChunks] at hp
  | succ m ih =>
    intro l p hp
    rw [Batch.splitChunks] at hp
    rcases List.mem_cons.mp hp with h | h
    · subst h; simp
    · exact ih (l.drop c) p h

theorem splitChunks_sum (c : ℕ) :
    ∀ (n : ℕ) (l : Batch),
      ((Batch.splitChunks c l n).map List.length).sum = min l.length (n * c) := by
  intro n
  induction n with
  | zero => intro l; simp [Batch.splitChunks]
  | succ m ih =>
    intro l
    rw [Batch.splitChunks]
    simp only [List.map_cons, List.sum_cons, ih (l.drop c), List.length_take,
      List.length_drop]
    have hmc : (m + 1) * c = m * c + c := by ring
    omega

theorem ceilDiv_mul_ge (s n : ℕ) (hn : 0 < n) : s ≤ n * ((s + n - 1) / n) := by
  have h := Nat.div_add_mod (s + n - 1) n
  have hlt : (s + n - 1) % n < n := Nat.mod_lt _ hn
  omega

theorem split_sizes_sum (b : Batch) (n : ℕ) (hn : 0 < n) :
    ((Batch.split b n).map List.length).sum = b.length := by
  rw [Batch.split, splitChunks_sum]
  exact Nat.min_eq_left (ceilDiv_mul_ge b.length n hn)

/-! ### The batch accumulator (`SyncGraphGroup::tryGetSubBatches`, lines 112-236)

The accumulator's cross-call state holds the pending batch queue and the
running average of target words per batch (`GraphGroup`'s
`typicalTrgBatchWords_`, which `updateAverageTrgBatchWords` maintains).
Configuration values read inside the function are gathered in
`AccConfig`; the scheduler's progress-based multiplier is a per-call
input. -/

structure AccConfig where
  /-- `scheduler_->isDynamicMBSizeScaling()` -/
  isDynamic : Bool
  /-- `delay_` (option `optimizer-delay`) -/
  delay : ℚ
  /-- `devices_.size() * mpi_->numMPIProcesses()` -/
  warpSize : ℕ
  /-- `updateMultiplier_` -/
  updateMultiplier : ℚ
  /-- option `mini-batch-words` (`refBatchLabels`) -/
  refBatchLabels : ℕ
  /-- `GraphGroup::mbRoundUp_` -/
  mbRoundUp : Bool
deriving DecidableEq, Repr

structure AccState where
  /-- `pendingBatches_` -/
  pendingBatches : List Batch
  /-- `GraphGroup::getTypicalTrgBatchWords()`, the running average kept by
  `updateAverageTrgBatchWords` -/
  typicalTrgBatchWords : ℚ
deriving DecidableEq, Repr

/-- The running average of target words per batch after this call's
`updateAverageTrgBatchWords` (line 167); the average is only updated when a
reference label count is configured. -/
def typicalAfterCall (cfg : AccConfig) (updAvg : ℚ → ℕ → ℚ) (st : AccState)
    (newBatch : Batch) : ℚ :=
  if cfg.refBatchLabels ≠ 0 then
    updAvg st.typicalTrgBatchWords (Batch.wordsTrg newBatch)
  else st.typicalTrgBatchWords

/-- The desired ratio computed by the dynamic path (lines 153-173):
scheduler multiplier times `updateMultiplier_`, optionally rescaled by the
reference-label adjustment (using the running average after this call's
update), optionally rounded up. -/
def dynamicRatio (cfg : AccConfig) (mbMultiplier typicalAfter : ℚ) : ℚ :=
  let r0 := mbMultiplier * cfg.updateMultiplier
  let r1 := if cfg.refBatchLabels ≠ 0 then
      r0 * (cfg.refBatchLabels : ℚ) / (typicalAfter * cfg.updateMultiplier)
    else r0
  if cfg.mbRoundUp then roundUpRatio r1 else r1

/-- The proportional shrink applied to each queued batch (lines 186-196):
`reducedBatchSize = ceil(size * ratio / queueLength)`, floored by a minimum
derived from 256 target words when the queue has exactly one entry; the
batch is replaced by a prefix of that many samples only when this is
strictly smaller than its current size. -/
def shrinkBatch (ratio : ℚ) (queueLength : ℕ) (b : Batch) : Batch :=
  let reducedBatchSize := (⌈(b.length : ℚ) * ratio / (queueLength : ℚ)⌉).toNat
  let minSize := if queueLength = 1 then 1 + (256 * b.length - 1) / Batch.wordsTrg b else 1
  let reduced := max reducedBatchSize minSize
  if reduced < b.length then Batch.splitPrefix b reduced else b

/-- The load-balancing step (lines 198-227): if the last warp is underfull
and `warpSize / lastWarpSize ≥ 2`, pop the last warp's batches and split
each into `warpSize / lastWarpSize` parts; `none` models the
`ABORT_IF(pendingBatches_.size() > availableDevices, ...)` fatal error. -/
def rebalance (pending : List Batch) (warpSize : ℕ) : Option (List Batch) :=
  let numWarps := (pending.length - 1) / warpSize + 1
  let availableDevices := numWarps * warpSize
  if pending.length < availableDevices then
    let fullWarpsBatches := (numWarps - 1) * warpSize
    let lastWarpSize := pending.length - fullWarpsBatches
    let splitInto := warpSize / lastWarpSize
    let newPending := if 1 < splitInto then
        pending.take fullWarpsBatches ++
          ((pending.drop fullWarpsBatches).reverse.map (fun b => Batch.split b splitInto)).flatten
      else pending
    if availableDevices < newPending.length then none else some newPending
  else some pending

/-- The sort at the end of `tryGetSubBatches` (lines 230-233): order the
sub-batches by decreasing maximum target width.  `std::sort` with
comparator `a->widthTrg() > b->widthTrg()` is modelled by a sort along the
reflexive closure of that comparator. -/
def sortByWidthTrgDesc (subBatches : List Batch) : List Batch :=
  List.insertionSort (fun a b => Batch.widthTrg b ≤ Batch.widthTrg a) subBatches

/-- `SyncGraphGroup::tryGetSubBatches` (lines 115-236).  `updAvg` is the
running-average update `GraphGroup::updateAverageTrgBatchWords` (modelled
from the spec: "an exponentially-or-simple moving estimate updated every
call"), and `mbMultiplier` is `scheduler_->getDynamicMBSizeMultiplier()`.
The result is `none` on a fatal `ABORT`; otherwise it carries the new
accumulator state and, when ready, the sub-batches together with
`numReadBatches`. -/
def tryGetSubBatches (cfg : AccConfig) (updAvg : ℚ → ℕ → ℚ) (mbMultiplier : ℚ)
    (st : AccState) (newBatch : Batch) :
    Option (AccState × Option (List Batch × ℕ)) :=
  if !cfg.isDynamic then
    some (st, some (Batch.split newBatch ((⌈cfg.delay⌉).toNat * cfg.warpSize), 1))
  else
    let pending := st.pendingBatches ++ [newBatch]
    if cfg.refBatchLabels ≠ 0 ∧ st.typicalTrgBatchWords = 0 then
      none  -- ABORT_IF(getTypicalTrgBatchWords() == 0, ...)
    else
      let typicalAfter := typicalAfterCall cfg updAvg st newBatch
      let ratio := dynamicRatio cfg mbMultiplier typicalAfter
      if (pending.length : ℚ) < ratio then
        some (⟨pending, typicalAfter⟩, none)
      else
        let numReadBatches := pending.length
        let shrunk := pending.map (shrinkBatch ratio pending.length)
        match rebalance shrunk cfg.warpSize with
        | none => none
        | some balanced =>
          let sorted := if 1 < balanced.length then sortByWidthTrgDesc balanced else balanced
          some (⟨[], typicalAfter⟩, some (sorted, numReadBatches))

/-! ### The rebalance step never aborts (shared lemma for C5 and C6) -/

theorem rebalance_ok (pending : List Batch) (w : ℕ) (hw : 0 < w)
    (hp : pending ≠ []) :
    ∃ res, rebalance pending w = some res ∧
      res.length ≤ ((pending.length - 1) / w + 1) * w := by
  have hlen : 0 < pending.length := List.length_pos.mpr hp
  have hmod := Nat.div_add_mod (pending.length - 1) w
  have hmodlt : (pending.length - 1) % w < w := Nat.mod_lt _ hw
  have hring : ((pending.length - 1) / w + 1) * w
      = w * ((pending.length - 1) / w) + w := by ring
  have havail : pending.length ≤ ((pending.length - 1) / w + 1) * w := by omega
  rw [rebalance]
  dsimp only
  simp only [Nat.add_sub_cancel]
  by_cases hcase : pending.length < ((pending.length - 1) / w + 1) * w
  · rw [if_pos hcase]
    have hfull : (pending.length - 1) / w * w ≤ pending.length - 1 :=
      Nat.div_mul_le_self _ _
    have hcomm : (pending.length - 1) / w * w = w * ((pending.length - 1) / w) :=
      mul_comm _ _
    by_cases hsplit : 1 < w / (pending.length - (pending.length - 1) / w * w)
    · rw [if_pos hsplit]
      set F := (pending.length - 1) / w * w with hF
      set s := w / (pending.length - F) with hs
      have hlastpos : 0 < pending.length - F := by omega
      have hnew :
          (pending.take F ++
            ((pending.drop F).reverse.map (fun b => Batch.split b s)).flatten).length
            = F + (pending.length - F) * s := by
        rw [List.length_append, List.length_flatten, List.map_map]
        have htake : (pending.take F).length = F := by
          simp only [List.length_take]
          omega
        have hconst : (List.length ∘ fun b : Batch => Batch.split b s)
            = fun _ => s := by
          funext b; exact split_length b _
        rw [htake, hconst, List.map_const', List.sum_replicate, smul_eq_mul]
        simp only [List.length_reverse, List.length_drop]
      have hdm : (pending.length - F) * s ≤ w := by
        rw [hs, mul_comm]
        exact Nat.div_mul_le_self w _
      have hbound : F + (pending.length - F) * s
          ≤ ((pending.length - 1) / w + 1) * w := by omega
      rw [if_neg (by rw [hnew]; omega)]
      exact ⟨_, rfl, by rw [hnew]; exact hbound⟩
    · rw [if_neg hsplit, if_neg (by omega)]
      exact ⟨pending, rfl, havail⟩
  · rw [if_neg hcase]
    exact ⟨pending, rfl, havail⟩

/-- C6: after the load-balancing rebalance step, the total number of
sub-batches never exceeds `numWarps × warpSize`; in particular the fatal
"split into too many batches" abort branch is unreachable. -/
theorem rebalance_never_aborts (pending : List Batch) (w : ℕ)
    (hw : 0 < w) (hp : pending ≠ []) :
    ∃ res, rebalance pending w = some res ∧
      res.length ≤ ((pending.length - 1) / w + 1) * w :=
  rebalance_ok pending w hw hp

/-- Witness for C6: a queue of three batches over `warpSize = 2`. -/
theorem rebalance_never_aborts_witness :
    0 < 2 ∧ ([[1], [2, 2], [3]] : List Batch) ≠ [] ∧
      ∃ res, rebalance [[1], [2, 2], [3]] 2 = some res ∧
        res.length ≤ ((([[1], [2, 2], [3]] : List Batch).length - 1) / 2 + 1) * 2 :=
  ⟨by decide, by decide,
    rebalance_never_aborts [[1], [2, 2], [3]] 2 (by decide) (by decide)⟩

/-- C4: in static mode, `tryGetSubBatches` is immediately ready with
`consumedBatchCount = 1`, splits the incoming batch into exactly
`ceil(delay) × warpSize` sub-batches of size at most
`⌈S / (ceil(delay) × warpSize)⌉` summing to `S`, and the accumulator state
(in particular the pending queue) is untouched. -/
theorem static_split_spec (cfg : AccConfig) (updAvg : ℚ → ℕ → ℚ)
    (mbMultiplier : ℚ) (st : AccState) (newBatch : Batch)
    (hstatic : cfg.isDynamic = false) (hw : 0 < cfg.warpSize)
    (hd : 1 ≤ cfg.delay) :
    tryGetSubBatches cfg updAvg mbMultiplier st newBatch =
      some (st, some (Batch.split newBatch ((⌈cfg.delay⌉).toNat * cfg.warpSize), 1)) ∧
    (Batch.split newBatch ((⌈cfg.delay⌉).toNat * cfg.warpSize)).length
      = (⌈cfg.delay⌉).toNat * cfg.warpSize ∧
    (∀ sb ∈ Batch.split newBatch ((⌈cfg.delay⌉).toNat * cfg.warpSize),
      sb.length ≤ (newBatch.length + (⌈cfg.delay⌉).toNat * cfg.warpSize - 1) /
        ((⌈cfg.delay⌉).toNat * cfg.warpSize)) ∧
    ((Batch.split newBatch ((⌈cfg.delay⌉).toNat * cfg.warpSize)).map
      List.length).sum = newBatch.length := by
  have hceil : (0 : ℤ) < ⌈cfg.delay⌉ := Int.ceil_pos.mpr (by linarith)
  have hn : 0 < (⌈cfg.delay⌉).toNat * cfg.warpSize :=
    Nat.mul_pos (by omega) hw
  refine ⟨?_, split_length _ _, ?_, split_sizes_sum _ _ hn⟩
  · rw [tryGetSubBatches, hstatic]
    rfl
  · intro sb hsb
    rw [Batch.split] at hsb
    exact splitChunks_sizes_le _ _ _ sb hsb

/-- Witness for C4: a batch of five samples split over
`ceil(delay) × warpSize = 2` device slots. -/
theorem static_split_spec_witness :
    (AccConfig.mk false 1 2 1 0 true).isDynamic = false ∧
    0 < (AccConfig.mk false 1 2 1 0 true).warpSize ∧
    1 ≤ (AccConfig.mk false 1 2 1 0 true).delay ∧
    tryGetSubBatches (AccConfig.mk false 1 2 1 0 true) (fun t _ => t) 1
        (AccState.mk [] 0) [1, 2, 3, 4, 5] =
      some (AccState.mk [] 0,
        some (Batch.split [1, 2, 3, 4, 5]
          ((⌈(AccConfig.mk false 1 2 1 0 true).delay⌉).toNat *
            (AccConfig.mk false 1 2 1 0 true).warpSize), 1)) :=
  ⟨rfl, by decide, by norm_num,
    (static_split_spec (AccConfig.mk false 1 2 1 0 true) (fun t _ => t) 1
      (AccState.mk [] 0) [1, 2, 3, 4, 5] rfl (by decide) (by norm_num)).1⟩

/-- C5: in dynamic mode (and absent the reference-labels abort), the call
returns not-ready exactly when the queue length after appending the new
batch is strictly below the (possibly rounded) target ratio, with no side
effect beyond the append and the running-average update; when ready,
`consumedBatchCount` is the queue length before the shrink and rebalance
steps. -/
theorem dynamic_ready_condition (cfg : AccConfig) (updAvg : ℚ → ℕ → ℚ)
    (mbMultiplier : ℚ) (st : AccState) (newBatch : Batch)
    (hdyn : cfg.isDynamic = true) (hw : 0 < cfg.warpSize)
    (habort : ¬(cfg.refBatchLabels ≠ 0 ∧ st.typicalTrgBatchWords = 0)) :
    ((((st.pendingBatches ++ [newBatch]).length : ℚ) <
        dynamicRatio cfg mbMultiplier (typicalAfterCall cfg updAvg st newBatch) →
      tryGetSubBatches cfg updAvg mbMultiplier st newBatch =
        some (⟨st.pendingBatches ++ [newBatch],
          typicalAfterCall cfg updAvg st newBatch⟩, none))) ∧
    (¬(((st.pendingBatches ++ [newBatch]).length : ℚ) <
        dynamicRatio cfg mbMultiplier (typicalAfterCall cfg updAvg st newBatch)) →
      ∃ subs, tryGetSubBatches cfg updAvg mbMultiplier st newBatch =
        some (⟨[], typicalAfterCall cfg updAvg st newBatch⟩,
          some (subs, (st.pendingBatches ++ [newBatch]).length))) := by
  rw [tryGetSubBatches, hdyn]
  simp only [Bool.not_true, Bool.false_eq_true, if_false, if_neg habort]
  constructor
  · intro hlt
    rw [if_pos hlt]
  · intro hge
    rw [if_neg hge]
    have hne : (st.pendingBatches ++ [newBatch]).map
        (shrinkBatch (dynamicRatio cfg mbMultiplier
          (typicalAfterCall cfg updAvg st newBatch))
          (st.pendingBatches ++ [newBatch]).length) ≠ [] := by
      simp
    obtain ⟨res, hres, -⟩ := rebalance_ok _ cfg.warpSize hw hne
    rw [hres]
    exact ⟨_, rfl⟩

/-- Witness for C5: with `updateMultiplier = 2` the first appended batch
leaves the queue below the target ratio of 2, so the call is not ready. -/
theorem dynamic_ready_condition_witness :
    (AccConfig.mk true 1 2 2 0 true).isDynamic = true ∧
    tryGetSubBatches (AccConfig.mk true 1 2 2 0 true) (fun t _ => t) 1
        (AccState.mk [] 0) [6] =
      some (AccState.mk [[6]] 0, none) :=
  ⟨rfl,
    (dynamic_ready_condition (AccConfig.mk true 1 2 2 0 true) (fun t _ => t) 1
      (AccState.mk [] 0) [6] rfl (by decide) (by simp)).1 (by
        show ((1:ℚ) < _)
        rw [show typicalAfterCall (AccConfig.mk true 1 2 2 0 true) (fun t _ => t)
          (AccState.mk [] 0) [6] = 0 from rfl]
        norm_num [dynamicRatio, roundUpRatio, ratioFuel, findPow, roundLoop])⟩

/-- C10: the proportional shrink step never enlarges any queued batch, so
the total sample count of the queue is non-increasing under the shrink
loop. -/
theorem shrink_no_enlarge (ratio : ℚ) (queue : List Batch) :
    (∀ b ∈ queue, (shrinkBatch ratio queue.length b).length ≤ b.length) ∧
    ((queue.map (shrinkBatch ratio queue.length)).map List.length).sum
      ≤ (queue.map List.length).sum := by
  have hb : ∀ (b : Batch) (L : ℕ), (shrinkBatch ratio L b).length ≤ b.length := by
    intro b L
    rw [shrinkBatch]
    split <;> split <;> simp [Batch.splitPrefix]
  refine ⟨fun b _ => hb b _, ?_⟩
  rw [List.map_map]
  exact List.sum_le_sum fun b _ => hb b _

/-- Witness for C10 at a concrete queue and ratio. -/
theorem shrink_no_enlarge_witness :
    (([2, 2] : Batch) ∈ ([[2, 2], [5]] : List Batch)) ∧
      (shrinkBatch (7 / 2) ([[2, 2], [5]] : List Batch).length [2, 2]).length
        ≤ ([2, 2] : Batch).length :=
  ⟨by decide, (shrink_no_enlarge (7 / 2) [[2, 2], [5]]).1 [2, 2] (by decide)⟩

/-! ### The consumed order of sub-batches (C7)

`tryGetSubBatches` orders its result by decreasing `widthTrg`
(lines 230-233), but `SyncGraphGroup::update` re-sorts the sub-batches by
decreasing `wordsTrg` (lines 260-261) before the per-slot assignment
consumes them, so the consumed sequence is ordered by total target words,
not by maximum target width. -/

/-- The sort at the start of `SyncGraphGroup::update` (lines 260-261):
order by decreasing total target word count.  `std::sort` with strict
comparator `a->wordsTrg() > b->wordsTrg()` is modelled by sorting along
the compatible non-strict order. -/
def sortByWordsTrgDesc (subBatches : List Batch) : List Batch :=
  List.insertionSort (fun a b => Batch.wordsTrg b ≤ Batch.wordsTrg a) subBatches

/-- The sequence of sub-batches, in the order the per-slot assignment of
`update` reads them through `getSubBatch`. -/
def consumedSequence (subBatches : List Batch) : List Batch :=
  sortByWordsTrgDesc subBatches

instance : IsTotal Batch (fun a b => Batch.wordsTrg b ≤ Batch.wordsTrg a) :=
  ⟨fun a b => le_total (Batch.wordsTrg b) (Batch.wordsTrg a)⟩

instance : IsTrans Batch (fun a b => Batch.wordsTrg b ≤ Batch.wordsTrg a) :=
  ⟨fun _ _ _ h1 h2 => le_trans h2 h1⟩

/-- C7 counterexample: an update cycle whose consumed sequence is not
sorted by decreasing maximum target width.  The accumulator hands
`update` the width-sorted sub-batches `[[6], [3,3,3,3]]`, but the
re-sort by total target words puts `[3,3,3,3]` (12 words, width 3)
before `[6]` (6 words, width 6). -/
theorem consumed_not_sorted_by_widthTrg :
    tryGetSubBatches (AccConfig.mk true 1 2 2 0 true) (fun t _ => t) 1
        (AccState.mk [[6]] 0) [3, 3, 3, 3] =
      some (AccState.mk [] 0, some ([[6], [3, 3, 3, 3]], 2)) ∧
    Batch.widthTrg ((consumedSequence [[6], [3, 3, 3, 3]]).get ⟨0, by decide⟩) <
      Batch.widthTrg ((consumedSequence [[6], [3, 3, 3, 3]]).get ⟨1, by decide⟩) := by
  constructor
  · rw [tryGetSubBatches]
    norm_num [typicalAfterCall, dynamicRatio, roundUpRatio, ratioFuel, findPow,
      roundLoop, shrinkBatch, Batch.wordsTrg, Batch.widthTrg, rebalance,
      sortByWidthTrgDesc, List.insertionSort, List.orderedInsert,
      Batch.split, Batch.splitChunks, Batch.splitPrefix]
  · decide

/-- C7 (amended): the sequence of sub-batches consumed by the per-slot
assignment in an update cycle is sorted by decreasing total target word
count (`wordsTrg`), not by maximum target width. -/
theorem consumed_sorted_by_wordsTrg (subs : List Batch)
    (i j : Fin (consumedSequence subs).length) (hij : i < j) :
    Batch.wordsTrg ((consumedSequence subs).get j)
      ≤ Batch.wordsTrg ((consumedSequence subs).get i) := by
  have hs : List.Sorted (fun a b => Batch.wordsTrg b ≤ Batch.wordsTrg a)
      (consumedSequence subs) :=
    List.sorted_insertionSort _ subs
  exact List.pairwise_iff_get.mp hs i j hij

/-- Witness for the amended C7 on a concrete pair of sub-batches. -/
theorem consumed_sorted_by_wordsTrg_witness :
    Batch.wordsTrg ((consumedSequence [[6], [3, 3, 3, 3]]).get ⟨1, by decide⟩)
      ≤ Batch.wordsTrg ((consumedSequence [[6], [3, 3, 3, 3]]).get ⟨0, by decide⟩) :=
  consumed_sorted_by_wordsTrg [[6], [3, 3, 3, 3]] ⟨0, by decide⟩ ⟨1, by decide⟩
    (by decide)

/-! ### Sub-batch assignment and the per-slot accumulation loop
(`SyncGraphGroup::update`, lines 264-308)

The forward/backward engine is an external collaborator; following §4.2 of
the design it is modelled by a function `build` that maps a sub-batch to
the loss value, the label count, and the gradient contribution of the
*unscaled* loss.  Multiplying the top loss node by the cost-scale factor
(line 301) scales the gradient that `backward` accumulates by that factor,
while the value accumulated into the loss sum (line 304) is the unscaled
`rationalLoss`. -/

/-- Result of one model build/forward on a sub-batch (modelled from the
spec: `Model.build(replica, batch) → (loss, labelCount)` plus the gradient
of the unscaled loss which backward would accumulate). -/
structure BuildOut where
  loss : ℚ
  labels : ℚ
  grad : ℚ

/-- The state a single device slot mutates during the accumulation loop:
its entry of `localDeviceLosses` (a `StaticLoss`, i.e. loss value plus
label count) and its gradient buffer. -/
structure SlotState where
  lossVal : ℚ
  lossCount : ℚ
  grad : ℚ
deriving DecidableEq, Repr

/-- `getSubBatch` (lines 264-273): the sub-batch assigned to accumulation
step `warp` on slot (`rank`, `localDeviceIndex`), or `none` beyond the
end. -/
def getSubBatch (subBatches : List Batch) (numProcesses devices : ℕ)
    (warp localDeviceIndex rank : ℕ) : Option Batch :=
  let index := (warp * numProcesses + rank) * devices + localDeviceIndex
  if h : index < subBatches.length then some (subBatches.get ⟨index, h⟩)
  else none

/-- One iteration of the accumulation loop body (lines 298-307): build the
loss, scale it by the cost-scale factor when that factor is not 1 (which
scales the gradient contribution of the backward pass), add the unscaled
loss into the slot's loss accumulator, and add the (scaled) gradient into
the slot's gradient buffer without resetting it. -/
def slotStep (costScaleFactor : ℚ) (build : Batch → BuildOut)
    (st : SlotState) (subBatch : Batch) : SlotState :=
  let out := build subBatch
  let gradContrib := if costScaleFactor ≠ 1 then costScaleFactor * out.grad else out.grad
  ⟨st.lossVal + out.loss, st.lossCount + out.labels, st.grad + gradContrib⟩

/-- The `for (size_t warp = 0; ; warp++)` loop of lines 292-308, with
explicit fuel; the loop stops at the first step whose index reaches beyond
the end of `subBatches`. -/
def slotLoop (costScaleFactor : ℚ) (build : Batch → BuildOut)
    (subBatches : List Batch) (numProcesses devices localDeviceIndex rank : ℕ) :
    ℕ → ℕ → SlotState → SlotState
  | 0, _, st => st
  | fuel + 1, warp, st =>
    match getSubBatch subBatches numProcesses devices warp localDeviceIndex rank with
    | none => st
    | some subBatch =>
      slotLoop costScaleFactor build subBatches numProcesses devices
        localDeviceIndex rank fuel (warp + 1) (slotStep costScaleFactor build st subBatch)

/-- The full accumulation loop for one slot, starting at warp 0.  Fuel
`subBatches.length + 1` always suffices: with at least one process and one
device per process the assigned index grows at least by one per warp. -/
def slotAccumulate (costScaleFactor : ℚ) (build : Batch → BuildOut)
    (subBatches : List Batch) (numProcesses devices localDeviceIndex rank : ℕ)
    (st : SlotState) : SlotState :=
  slotLoop costScaleFactor build subBatches numProcesses devices
    localDeviceIndex rank (subBatches.length + 1) 0 st

/-- The ordered list of sub-batches the loop hands to one slot. -/
def assignedFrom (subBatches : List Batch) (numProcesses devices localDeviceIndex rank : ℕ) :
    ℕ → ℕ → List Batch
  | 0, _ => []
  | fuel + 1, warp =>
    match getSubBatch subBatches numProcesses devices warp localDeviceIndex rank with
    | none => []
    | some subBatch =>
      subBatch :: assignedFrom subBatches numProcesses devices localDeviceIndex rank
        fuel (warp + 1)

/-- The sub-batches assigned to a slot across its accumulation steps, in
increasing step order. -/
def assignedSubBatches (subBatches : List Batch)
    (numProcesses devices localDeviceIndex rank : ℕ) : List Batch :=
  assignedFrom subBatches numProcesses devices localDeviceIndex rank
    (subBatches.length + 1) 0

theorem slotLoop_eq_foldl (costScaleFactor : ℚ) (build : Batch → BuildOut)
    (subBatches : List Batch) (numProcesses devices localDeviceIndex rank : ℕ) :
    ∀ (fuel warp : ℕ) (st : SlotState),
      slotLoop costScaleFactor build subBatches numProcesses devices
          localDeviceIndex rank fuel warp st =
        (assignedFrom subBatches numProcesses devices localDeviceIndex rank
          fuel warp).foldl (slotStep costScaleFactor build) st := by
  intro fuel
  induction fuel with
  | zero => intro warp st; rfl
  | succ n ih =>
    intro warp st
    rw [slotLoop, assignedFrom]
    cases getSubBatch subBatches numProcesses devices warp localDeviceIndex rank with
    | none => rfl
    | some b => simp [ih, List.foldl_cons]

theorem foldl_slotStep_spec (costScaleFactor : ℚ) (build : Batch → BuildOut) :
    ∀ (l : List Batch) (st : SlotState),
      l.foldl (slotStep costScaleFactor build) st =
        ⟨st.lossVal + (l.map (fun b => (build b).loss)).sum,
         st.lossCount + (l.map (fun b => (build b).labels)).sum,
         st.grad + costScaleFactor * (l.map (fun b => (build b).grad)).sum⟩ := by
  intro l
  induction l with
  | nil => intro st; simp
  | cons b rest ih =>
    intro st
    rw [List.foldl_cons, ih]
    simp only [slotStep, List.map_cons, List.sum_cons, SlotState.mk.injEq]
    refine ⟨by ring, by ring, ?_⟩
    split
    · ring
    · rename_i h
      rw [not_not.mp h]
      ring

/-- C1: in every update cycle, each slot's accumulation loop adds, for
every assigned accumulation step, the cost-scale-scaled gradient of that
step's loss into the slot's gradient buffer (which is never reset
mid-cycle: the initial contents survive), and adds the unscaled
(scaled-back) loss and label count into the slot's loss accumulator. -/
theorem slot_accumulation_spec (costScaleFactor : ℚ) (build : Batch → BuildOut)
    (subBatches : List Batch) (numProcesses devices localDeviceIndex rank : ℕ)
    (st : SlotState) :
    slotAccumulate costScaleFactor build subBatches numProcesses devices
        localDeviceIndex rank st =
      ⟨st.lossVal + ((assignedSubBatches subBatches numProcesses devices
          localDeviceIndex rank).map (fun b => (build b).loss)).sum,
       st.lossCount + ((assignedSubBatches subBatches numProcesses devices
          localDeviceIndex rank).map (fun b => (build b).labels)).sum,
       st.grad + costScaleFactor * ((assignedSubBatches subBatches numProcesses devices
          localDeviceIndex rank).map (fun b => (build b).grad)).sum⟩ := by
  rw [slotAccumulate, slotLoop_eq_foldl, foldl_slotStep_spec]
  rfl

/-- C8: the assignment maps `(step, slot)` pairs to sub-batch indices by
`index = (step × numProcesses + rank) × devicesPerProcess + localDeviceIndex`;
it yields a sub-batch exactly when the index is in range, a slot that runs
out stays out at every later step, and every in-range index is covered by
exactly one `(step, localDeviceIndex, rank)` triple. -/
theorem subbatch_assignment_spec (subBatches : List Batch)
    (numProcesses devices : ℕ) (hnP : 0 < numProcesses) (hnD : 0 < devices) :
    (∀ warp localDeviceIndex rank b,
        getSubBatch subBatches numProcesses devices warp localDeviceIndex rank
            = some b ↔
          ((warp * numProcesses + rank) * devices + localDeviceIndex
              < subBatches.length ∧
            subBatches.get?
              ((warp * numProcesses + rank) * devices + localDeviceIndex)
              = some b)) ∧
    (∀ warp localDeviceIndex rank,
        getSubBatch subBatches numProcesses devices warp localDeviceIndex rank
            = none →
          getSubBatch subBatches numProcesses devices (warp + 1)
            localDeviceIndex rank = none) ∧
    (∀ i, i < subBatches.length →
        ∃! t : ℕ × ℕ × ℕ, t.2.1 < devices ∧ t.2.2 < numProcesses ∧
          (t.1 * numProcesses + t.2.2) * devices + t.2.1 = i) := by
  refine ⟨?_, ?_, ?_⟩
  · intro warp localDeviceIndex rank b
    rw [getSubBatch]
    split
    · rename_i h
      simp only [Option.some.injEq]
      constructor
      · intro hb
        exact ⟨h, by rw [List.get?_eq_get h, hb]⟩
      · intro ⟨_, hb⟩
        rw [List.get?_eq_get h] at hb
        exact Option.some.inj hb
    · rename_i h
      constructor
      · intro hb
        exact absurd hb (by simp)
      · intro ⟨hlt, _⟩
        exact absurd hlt h
  · intro warp localDeviceIndex rank h
    rw [getSubBatch] at h ⊢
    split at h
    · exact absurd h (by simp)
    · rename_i hc
      split
      · rename_i hc2
        exfalso
        have hexp : ((warp + 1) * numProcesses + rank) * devices + localDeviceIndex
            = (warp * numProcesses + rank) * devices + localDeviceIndex
              + numProcesses * devices := by ring
        have hpos : 0 < numProcesses * devices := Nat.mul_pos hnP hnD
        omega
      · rfl
  · intro i hi
    refine ⟨(i / devices / numProcesses, i % devices, (i / devices) % numProcesses),
      ⟨Nat.mod_lt _ hnD, Nat.mod_lt _ hnP, ?_⟩, ?_⟩
    · show (i / devices / numProcesses * numProcesses + i / devices % numProcesses)
          * devices + i % devices = i
      rw [Nat.mul_comm (i / devices / numProcesses) numProcesses,
        Nat.div_add_mod (i / devices) numProcesses, Nat.mul_comm (i / devices) devices,
        Nat.div_add_mod i devices]
    · rintro ⟨w, d, r⟩ ⟨hd, hr, he⟩
      have hbase : (w * numProcesses + r) * devices + d = i := he
      have hd' : i % devices = d := by
        rw [← hbase, Nat.mul_comm (w * numProcesses + r) devices, Nat.mul_add_mod]
        exact Nat.mod_eq_of_lt hd
      have hq : i / devices = w * numProcesses + r := by
        rw [← hbase, Nat.mul_comm (w * numProcesses + r) devices,
          Nat.mul_add_div hnD]
        rw [Nat.div_eq_of_lt hd, Nat.add_zero]
      have hr' : (i / devices) % numProcesses = r := by
        rw [hq, Nat.mul_comm w numProcesses, Nat.mul_add_mod]
        exact Nat.mod_eq_of_lt hr
      have hw' : i / devices / numProcesses = w := by
        rw [hq, Nat.mul_comm w numProcesses, Nat.mul_add_div hnP,
          Nat.div_eq_of_lt hr, Nat.add_zero]
      simp only [Prod.mk.injEq]
      exact ⟨hw'.symm, hd'.symm, hr'.symm⟩

/-- Witness for C8: three sub-batches over one process with two devices;
index 1 has exactly one `(step, device, rank)` preimage. -/
theorem subbatch_assignment_spec_witness :
    0 < 1 ∧ 0 < 2 ∧ (1 < ([[1], [2], [3]] : List Batch).length ∧
      ∃! t : ℕ × ℕ × ℕ, t.2.1 < 2 ∧ t.2.2 < 1 ∧ (t.1 * 1 + t.2.2) * 2 + t.2.1 = 1) :=
  ⟨by decide, by decide, by decide,
    (subbatch_assignment_spec [[1], [2], [3]] 1 2 (by decide) (by decide)).2.2 1
      (by decide)⟩

/-! ### The sanity check and the parameter update
(`SyncGraphGroup::update`, lines 326-407)

After the scatter-reduce, the aggregated gradient lives in per-slot shards;
a shard is modelled as one rational holding its content, and a parameter
shard likewise.  The collaborators that are not under the scanned sources
are passed in as functions:
`checkFn` models `GraphGroup::checkNanOrNorm` on one shard, returning
`none` for a non-finite (NaN/Inf) result and `some norm` otherwise;
`combine` models the finite case of the `accNanOrNorm` reduction;
`normFactorFn` models `GraphGroup::computeNormalizationFactor`;
`optUpdate` models `OptimizerBase::update`, returning the updated parameter
shard and the partial L2 norm of the update; `decCS`/`incCS` model
`GraphGroup::decreaseCostScaleFactor` / `increaseCostScaleFactor`.  This
phase of the source contains no `ABORT`, so the model is a total
function — in particular a non-finite gradient never raises an error. -/

/-- Modelled from the spec: the `accNanOrNorm` reduction propagates a
non-finite value and otherwise combines the two finite partial norms. -/
def accNanOrNorm (combine : ℚ → ℚ → ℚ) : Option ℚ → Option ℚ → Option ℚ
  | some x, some y => some (combine x y)
  | _, _ => none

/-- The guarded gradient-norm check of line 337:
`checkGradient ? comm_->foreach(checkNanOrNorm, accNanOrNorm, 0.f) : 0.f`;
`none` models a non-finite (NaN/Inf) aggregate. -/
def gradNormCheck (combine : ℚ → ℚ → ℚ) (checkFn : ℚ → Option ℚ)
    (checkGradient : Bool) (grads : List ℚ) : Option ℚ :=
  if checkGradient then (grads.map checkFn).foldl (accNanOrNorm combine) (some 0)
  else some 0

/-- The per-shard optimizer updates of lines 346-353: each parameter shard
is updated from its gradient shard, yielding the new shard and a partial
norm. -/
def shardUpdates (optUpdate : ℚ → ℚ → ℕ → ℚ → ℚ × ℚ) (updateTrgWords : ℕ)
    (normalizer : ℚ) (params grads : List ℚ) : List (ℚ × ℚ) :=
  (params.zip grads).map (fun pg => optUpdate pg.1 pg.2 updateTrgWords normalizer)

/-- Result of the update phase: parameter shards, gradient shards, the
cost-scale factor, and the gradient norm reported to the scheduler. -/
structure UpdOut where
  params : List ℚ
  grads : List ℚ
  costScale : ℚ
  reportedNorm : ℚ
deriving DecidableEq, Repr

/-- Lines 337-407 of `SyncGraphGroup::update`, after the scatter-reduce:
check the aggregated gradient, and either apply the per-shard optimizer
updates (zeroing each gradient shard after consuming it, recomputing the
reported norm from the partial update norms, dividing by the label count
unless normalize-gradient is set, and opportunistically increasing the
cost-scale factor), or — on a non-finite gradient — leave the parameters
alone, zero every gradient shard, report a zero norm and decrease the
cost-scale factor. -/
def updatePhase (combine : ℚ → ℚ → ℚ) (checkFn : ℚ → Option ℚ)
    (normFactorFn : ℚ → ℕ → ℚ) (optUpdate : ℚ → ℚ → ℕ → ℚ → ℚ × ℚ)
    (decCS incCS : ℚ → ℚ) (checkGradient normalizeGradient : Bool)
    (updateTrgWords : ℕ) (params grads : List ℚ) (costScale : ℚ) : UpdOut :=
  match gradNormCheck combine checkFn checkGradient grads with
  | some gradNorm =>
    -- saneGradient: per-shard optimizer update, each gradient shard is
    -- zeroed right after it is consumed (line 351)
    let normalizer := normFactorFn gradNorm updateTrgWords
    let upd := shardUpdates optUpdate updateTrgWords normalizer params grads
    let rawNorm := (upd.map Prod.snd).foldl combine 0
    let reported := if normalizeGradient then rawNorm
      else rawNorm / (updateTrgWords : ℚ)
    ⟨upd.map Prod.fst, grads.map (fun _ => 0), incCS costScale, reported⟩
  | none =>
    -- non-finite gradient: skip the update, reset every gradient shard,
    -- report zero, decrease the cost-scale factor (lines 368-381)
    ⟨params, grads.map (fun _ => 0), decCS costScale, 0⟩

/-- C2: a cycle with a non-finite aggregated gradient norm leaves every
parameter shard untouched, zeroes every gradient shard and strictly
decreases the cost-scale factor (the phase is a total function, so no
exception is raised); conversely a finite-norm cycle applies the per-shard
optimizer updates and never decreases the cost-scale factor. -/
theorem nonfinite_gradient_skips_update (combine : ℚ → ℚ → ℚ)
    (checkFn : ℚ → Option ℚ) (normFactorFn : ℚ → ℕ → ℚ)
    (optUpdate : ℚ → ℚ → ℕ → ℚ → ℚ × ℚ) (decCS incCS : ℚ → ℚ)
    (checkGradient normalizeGradient : Bool) (updateTrgWords : ℕ)
    (params grads : List ℚ) (costScale : ℚ)
    (hdec : ∀ c, decCS c < c) (hinc : ∀ c, c ≤ incCS c) :
    (gradNormCheck combine checkFn checkGradient grads = none →
      updatePhase combine checkFn normFactorFn optUpdate decCS incCS
          checkGradient normalizeGradient updateTrgWords params grads costScale
        = ⟨params, grads.map (fun _ => 0), decCS costScale, 0⟩ ∧
      (updatePhase combine checkFn normFactorFn optUpdate decCS incCS
          checkGradient normalizeGradient updateTrgWords params grads
          costScale).costScale < costScale) ∧
    (∀ n, gradNormCheck combine checkFn checkGradient grads = some n →
      (updatePhase combine checkFn normFactorFn optUpdate decCS incCS
          checkGradient normalizeGradient updateTrgWords params grads
          costScale).params
        = (shardUpdates optUpdate updateTrgWords (normFactorFn n updateTrgWords)
            params grads).map Prod.fst ∧
      (updatePhase combine checkFn normFactorFn optUpdate decCS incCS
          checkGradient normalizeGradient updateTrgWords params grads
          costScale).grads = grads.map (fun _ => 0) ∧
      costScale ≤ (updatePhase combine checkFn normFactorFn optUpdate decCS incCS
          checkGradient normalizeGradient updateTrgWords params grads
          costScale).costScale) := by
  constructor
  · intro hnone
    rw [updatePhase, hnone]
    exact ⟨rfl, hdec costScale⟩
  · intro n hsome
    rw [updatePhase, hsome]
    exact ⟨rfl, rfl, hinc costScale⟩

/-- Witness for C2: a single shard whose check reports NaN; the update is
skipped, the gradient shard is zeroed and the cost-scale factor drops. -/
theorem nonfinite_gradient_skips_update_witness :
    (∀ c : ℚ, c - 1 < c) ∧ (∀ c : ℚ, c ≤ c + 1) ∧
    gradNormCheck (fun a b => a + b) (fun _ => none) true [5] = none ∧
    updatePhase (fun a b => a + b) (fun _ => none) (fun n _ => n)
        (fun p g _ f => (p - f * g, g)) (fun c => c - 1) (fun c => c + 1)
        true false 4 [7] [5] 16
      = ⟨[7], [0], 15, 0⟩ := by
  refine ⟨fun c => sub_one_lt c, fun c => (lt_add_one c).le, rfl, ?_⟩
  have h := (nonfinite_gradient_skips_update (fun a b => a + b) (fun _ => none)
    (fun n _ => n) (fun p g _ f => (p - f * g, g)) (fun c => c - 1)
    (fun c => c + 1) true false 4 [7] [5] 16
    (fun c => sub_one_lt c) (fun c => (lt_add_one c).le)).1 rfl
  rw [h.1]
  norm_num

/-- C9: after a sane update, the gradient norm reported to the scheduler
is the aggregation of the per-shard optimizer update norms, divided by the
cycle's total target-label count when normalize-gradient is disabled and
taken unchanged when it is enabled. -/
theorem reported_norm_normalization (combine : ℚ → ℚ → ℚ)
    (checkFn : ℚ → Option ℚ) (normFactorFn : ℚ → ℕ → ℚ)
    (optUpdate : ℚ → ℚ → ℕ → ℚ → ℚ × ℚ) (decCS incCS : ℚ → ℚ)
    (checkGradient normalizeGradient : Bool) (updateTrgWords : ℕ)
    (params grads : List ℚ) (costScale : ℚ) (n : ℚ)
    (hsome : gradNormCheck combine checkFn checkGradient grads = some n) :
    (normalizeGradient = true →
      (updatePhase combine checkFn normFactorFn optUpdate decCS incCS
          checkGradient normalizeGradient updateTrgWords params grads
          costScale).reportedNorm
        = ((shardUpdates optUpdate updateTrgWords (normFactorFn n updateTrgWords)
            params grads).map Prod.snd).foldl combine 0) ∧
    (normalizeGradient = false →
      (updatePhase combine checkFn normFactorFn optUpdate decCS incCS
          checkGradient normalizeGradient updateTrgWords params grads
          costScale).reportedNorm
        = ((shardUpdates optUpdate updateTrgWords (normFactorFn n updateTrgWords)
            params grads).map Prod.snd).foldl combine 0
            / (updateTrgWords : ℚ)) := by
  constructor
  · intro hng
    rw [updatePhase, hsome]
    simp only [hng, if_true]
  · intro hng
    rw [updatePhase, hsome]
    simp only [hng, Bool.false_eq_true, if_false]

/-- Witness for C9 on one shard with the norm check disabled (the norm is
then the finite `0.f`), with normalize-gradient off: the reported norm is
the raw update norm divided by the label count. -/
theorem reported_norm_normalization_witness :
    gradNormCheck (fun a b => a + b) (fun x => some x) false [6] = some 0 ∧
    (updatePhase (fun a b => a + b) (fun x => some x) (fun n _ => n)
        (fun p g _ f => (p - f * g, g)) (fun c => c - 1) (fun c => c + 1)
        false false 4 [7] [6] 16).reportedNorm = 6 / 4 := by
  refine ⟨rfl, ?_⟩
  have h := (reported_norm_normalization (fun a b => a + b) (fun x => some x)
    (fun n _ => n) (fun p g _ f => (p - f * g, g)) (fun c => c - 1)
    (fun c => c + 1) false false 4 [7] [6] 16 0 rfl).2 rfl
  rw [h]
  simp only [shardUpdates, List.zip_cons_cons, List.zip_nil_right,
    List.map_cons, List.map_nil, List.foldl_cons, List.foldl_nil]
  norm_num

end Marian
